import Mathlib

/-
Verification of the multi-source paper retrieval and normalization pipeline
(src/u_ok_luv/vec_db_refresh/download_papers.py).

The Python functions are shallowly embedded as executable Lean definitions.
Strings are modelled through their character lists; Python truthiness of
strings (None and the empty string are falsy) is modelled by pyOr; network
effects are modelled by oracle functions passed as parameters (a request that
fails after retries, returns a non-success status, or whose body does not
decode is modelled by the oracle returning none); the unbounded while-loops
are given an explicit fuel parameter, and each loop also returns the number of
page requests it performed.

Modelling notes, stated once here and referenced from the definitions:
- Character classes (whitespace, case folding) are modelled over ASCII, which
  covers the character ranges the upstream APIs emit for the fields involved.
- textwrap.wrap is modelled under its default options for inputs whose
  whitespace consists of single spaces between words, whose words contain no
  hyphens, and whose words do not exceed the width; the theorems that use the
  model carry exactly these hypotheses, and on that domain the model agrees
  with the Python function (hyphen splitting, long-word breaking and
  whitespace-run preservation cannot trigger there).
- datetime.fromisoformat is modelled on the dashed calendar-date form
  YYYY-MM-DD, the only form the upstream APIs supply for the fields involved.
-/

/-- Whitespace characters of the regex class backslash-s and of str.strip,
restricted to ASCII: space, tab, newline, carriage return, vertical tab,
form feed. -/
def isPySpace (c : Char) : Bool :=
  c = ' ' || c = '\t' || c = '\n' || c = '\r' || c = Char.ofNat 11 || c = Char.ofNat 12

/-- Python `a or d` for an optional string a: None and the empty string are
falsy and fall through to the default. -/
def pyOr (a : Option String) (d : String) : String :=
  match a with
  | none => d
  | some s => if s = "" then d else s

/-- Python str.strip() on a character list: drop leading and trailing
whitespace. -/
def pyStripL (l : List Char) : List Char :=
  ((l.dropWhile isPySpace).reverse.dropWhile isPySpace).reverse

/-- Python str.strip(). -/
def pyStrip (s : String) : String := String.mk (pyStripL s.data)

/-- Python str.lower(), ASCII case folding. -/
def pyLower (s : String) : String := String.mk (s.data.map Char.toLower)

/-- Python s.replace(chr(10), " "): replace each newline by a space. -/
def pyReplaceNl (s : String) : String :=
  String.mk (s.data.map (fun c => if c = '\n' then ' ' else c))

/-- Worker of splitWords: cur is the word in progress, accumulated in
reverse. -/
def splitWordsAux : List Char → List Char → List (List Char)
  | [], cur => if cur = [] then [] else [cur.reverse]
  | c :: cs, cur =>
    if isPySpace c then
      if cur = [] then splitWordsAux cs [] else cur.reverse :: splitWordsAux cs []
    else splitWordsAux cs (c :: cur)

/-- Split a character list into its maximal runs of non-whitespace characters
(the words), dropping the whitespace. This is the word splitting stage of
textwrap.wrap on the restricted input domain described in the module header. -/
def splitWords (l : List Char) : List (List Char) := splitWordsAux l []

/-- Join words with single spaces. -/
def joinWords : List (List Char) → List Char
  | [] => []
  | [w] => w
  | w :: ws => w ++ ' ' :: joinWords ws

/-- Greedy line filling of textwrap.wrap: cur is the current line; a word is
added to a non-empty current line exactly when the line, a separating space
and the word fit in the width. -/
def wrapWords (width : Nat) : List (List Char) → List Char → List (List Char)
  | [], cur => if cur = [] then [] else [cur]
  | w :: ws, cur =>
    if cur = [] then wrapWords width ws w
    else if cur.length + 1 + w.length ≤ width then wrapWords width ws (cur ++ ' ' :: w)
    else cur :: wrapWords width ws w

/-- textwrap.wrap on a character list: split into words, then fill lines
greedily. See the module header for the domain on which this models the
Python function. -/
def pyWrap (l : List Char) (width : Nat) : List (List Char) :=
  wrapWords width (splitWords l) []

/-- textwrap.wrap(s, width=width). -/
def textwrapWrap (s : String) (width : Nat) : List String :=
  (pyWrap s.data width).map String.mk

/-- Whether a year is a leap year (proleptic Gregorian, as datetime uses). -/
def isLeapYear (y : Nat) : Bool :=
  y % 4 = 0 && (y % 100 ≠ 0 || y % 400 = 0)

/-- Number of days in a month. -/
def daysInMonth (y m : Nat) : Nat :=
  if m = 2 then (if isLeapYear y then 29 else 28)
  else if m = 4 || m = 6 || m = 9 || m = 11 then 30
  else 31

/-- Numeric value of a decimal digit character. -/
def digitVal (c : Char) : Nat := c.toNat - 48

/-- datetime.fromisoformat on the dashed calendar-date form YYYY-MM-DD:
parse the year, month and day, requiring a valid calendar date with year at
least 1 (datetime.MINYEAR). Returns none where Python raises ValueError. -/
def parseIsoDate (s : String) : Option (Nat × Nat × Nat) :=
  match s.data with
  | [y1, y2, y3, y4, h1, m1, m2, h2, d1, d2] =>
    if h1 = '-' ∧ h2 = '-' ∧
        (y1.isDigit && y2.isDigit && y3.isDigit && y4.isDigit &&
         m1.isDigit && m2.isDigit && d1.isDigit && d2.isDigit) = true then
      let y := digitVal y1 * 1000 + digitVal y2 * 100 + digitVal y3 * 10 + digitVal y4
      let m := digitVal m1 * 10 + digitVal m2
      let d := digitVal d1 * 10 + digitVal d2
      if 1 ≤ y ∧ 1 ≤ m ∧ m ≤ 12 ∧ 1 ≤ d ∧ d ≤ daysInMonth y m then some (y, m, d)
      else none
    else none
  | _ => none

/-- Zero-pad a number to two digits. -/
def pad2 (n : Nat) : String := if n < 10 then "0" ++ toString n else toString n

/-- Zero-pad a number to four digits. -/
def pad4 (n : Nat) : String :=
  if n < 10 then "000" ++ toString n
  else if n < 100 then "00" ++ toString n
  else if n < 1000 then "0" ++ toString n
  else toString n

/-- date.isoformat(): render a parsed date back in canonical YYYY-MM-DD form. -/
def renderIsoDate : Nat × Nat × Nat → String
  | (y, m, d) => pad4 y ++ "-" ++ pad2 m ++ "-" ++ pad2 d

/-- The function _safe_date_iso: the empty string maps to itself; otherwise the
first 10 characters are parsed with fromisoformat and rendered canonically on
success, and on a parse failure the original string is returned unchanged. -/
def safe_date_iso (s : String) : String :=
  if s = "" then ""
  else
    match parseIsoDate (String.mk (s.data.take 10)) with
    | some ymd => renderIsoDate ymd
    | none => s

/-- One output record (chunk row). Fields absent from a producing source are
modelled as none (a Python dict without the key). -/
structure Row where
  paper_id : String
  title : String
  authors : String
  published : String
  source : String
  chunk_id : Nat
  text_chunk : String
  doi : Option String := none
  abstract : Option String := none
  pdf_url : Option String := none
deriving DecidableEq, Repr

/-- The dedup key of dedupe_rows: (doi or paper_id or "", published, chunk_id,
text_chunk), with Python or-chaining over falsy values. -/
def rowKey (r : Row) : String × String × Nat × String :=
  (pyOr r.doi (pyOr (some r.paper_id) ""), r.published, r.chunk_id, r.text_chunk)

/-- Worker of dedupe_rows with the set of already seen keys. -/
def dedupeRowsAux : List Row → List (String × String × Nat × String) → List Row
  | [], _ => []
  | r :: rs, seen =>
    if rowKey r ∈ seen then dedupeRowsAux rs seen
    else r :: dedupeRowsAux rs (rowKey r :: seen)

/-- The function dedupe_rows: keep the first occurrence of each key in input
order, drop every later record with an already seen key. -/
def dedupe_rows (rows : List Row) : List Row := dedupeRowsAux rows []

/-- The records of a list that carry a given dedup key, in order. -/
def filterKey (k : String × String × Nat × String) (rows : List Row) : List Row :=
  rows.filter (fun r => decide (rowKey r = k))

/-- One HTTP response as _request_json observes it: a status code, and for a
200 response the decoded JSON payload (none models a body that fails to
decode). The payload itself is opaque here and modelled as a string. -/
structure Resp where
  status : Nat
  body : Option String
deriving DecidableEq, Repr

/-- The fixed retryable status set of _request_json. -/
def retryable (s : Nat) : Bool :=
  s = 403 || s = 429 || s = 502 || s = 503 || s = 504

/-- Worker of _request_json: responses maps the request index (0-based) to the
response the server gives; i is the index of the next request; the result is
the decoded payload (or none for any failure) together with the list of
backoff sleeps performed, in order. The fuel only bounds the recursion and is
chosen so that it never runs out (at most retries + 1 requests happen). -/
def requestJsonGo (responses : Nat → Resp) (retries : Nat) (backoff : ℚ) :
    Nat → Nat → Option String × List ℚ
  | _, 0 => (none, [])
  | i, fuel + 1 =>
    let resp := responses i
    if resp.status = 200 then (resp.body, [])
    else
      let attempt := i + 1
      if retryable resp.status = true ∧ attempt ≤ retries then
        let p := requestJsonGo responses retries backoff (i + 1) fuel
        (p.1, (backoff * attempt : ℚ) :: p.2)
      else (none, [])

/-- The function _request_json: run requests from index 0 with the attempt
counter starting at 0. -/
def request_json (responses : Nat → Resp) (retries : Nat) (backoff : ℚ) :
    Option String × List ℚ :=
  requestJsonGo responses retries backoff 0 (retries + 1)

/-- Worker of Python str.split(";") with the current piece accumulated in
reverse. -/
def splitSemiAux : List Char → List Char → List (List Char)
  | [], cur => [cur.reverse]
  | c :: cs, cur =>
    if c = ';' then cur.reverse :: splitSemiAux cs [] else splitSemiAux cs (c :: cur)

/-- Python authors.split(";"): split on every semicolon, keeping empty
pieces. -/
def pySplitSemicolon (s : String) : List String :=
  (splitSemiAux s.data []).map String.mk

/-- Whether the first list is an initial segment of the second. -/
def startsWithChars : List Char → List Char → Bool
  | [], _ => true
  | _ :: _, [] => false
  | c :: cs, d :: ds => c = d && startsWithChars cs ds

/-- Python substring containment `needle in hay` on character lists. -/
def hasSubstring (needle : List Char) : List Char → Bool
  | [] => needle = []
  | d :: ds => startsWithChars needle (d :: ds) || hasSubstring needle ds

/-- One item of a medRxiv details-API page. Fields are optional strings; a
missing key and an explicit JSON null both map to none. -/
structure MedItem where
  abstract : Option String := none
  title : Option String := none
  authors : Option String := none
  doi : Option String := none
  date : Option String := none
  server : Option String := none
  version : Option String := none
deriving DecidableEq, Repr

/-- The stripped abstract a medRxiv item is processed with. -/
def medAbstract (item : MedItem) : String := pyStrip (pyOr item.abstract "")

/-- The stripped title a medRxiv item is processed with. -/
def medTitle (item : MedItem) : String := pyStrip (pyOr item.title "")

/-- The row-building tail of _process_medrxiv_item, applied to the abstract an
item passed the filter with: normalize the remaining fields and emit one row
per chunk, with chunk_id equal to the chunk index. -/
def medBuildRows (item : MedItem) (abstract : String) (wrapWidth : Nat) : List Row :=
  let title := medTitle item
  let authorsRaw := pyStrip (pyOr item.authors "")
  let authorsList := ((pySplitSemicolon authorsRaw).map pyStrip).filter (fun a => a ≠ "")
  let authors := ", ".intercalate authorsList
  let doi := pyOr item.doi ""
  let dateStr := pyOr item.date ""
  let published := safe_date_iso dateStr
  let wrapped := textwrapWrap (pyReplaceNl abstract) wrapWidth
  wrapped.enum.map (fun ic =>
    { paper_id := if doi = "" then (item.server.getD "") ++ "_" ++ (item.version.getD "")
        else doi
      title := title
      authors := authors
      published := published
      source := "medrxiv"
      chunk_id := ic.1
      text_chunk := ic.2
      abstract := some abstract
      doi := some doi })

/-- The function _process_medrxiv_item: keep the item only if the term list is
empty or some term occurs in the lowercased title-space-abstract text, then
chunk the abstract into rows. -/
def process_medrxiv_item (item : MedItem) (lowerTerms : List String)
    (wrapWidth : Nat) : List Row :=
  let abstract := medAbstract item
  let title := medTitle item
  let taLower := pyLower (title ++ " " ++ abstract)
  if 0 < lowerTerms.length ∧
      lowerTerms.any (fun t => hasSubstring t.data taLower.data) = false then []
  else medBuildRows item abstract wrapWidth

/-- The row-appending inner loop of the fetchers: append the rows one at a
time and stop as soon as the accumulated count reaches the cap. -/
def appendCapped (maxResults : Nat) : List Row → List Row → List Row
  | acc, [] => acc
  | acc, r :: rs =>
    let acc2 := acc ++ [r]
    if maxResults ≤ acc2.length then acc2 else appendCapped maxResults acc2 rs

/-- The per-item loop of query_medrxiv_papers over one page: process each item,
append its rows under the cap, and stop early once the cap is reached. -/
def medProcessItemsCapped (terms : List String) (maxResults wrapWidth : Nat) :
    List MedItem → List Row → List Row
  | [], acc => acc
  | it :: its, acc =>
    let acc2 := appendCapped maxResults acc (process_medrxiv_item it terms wrapWidth)
    if maxResults ≤ acc2.length then acc2
    else medProcessItemsCapped terms maxResults wrapWidth its acc2

/-- The pagination loop of query_medrxiv_papers. The server oracle maps a
numeric cursor to a page of items; none models a request that _request_json
ultimately failed (the loop then returns the partial results). The second
component counts the page requests performed. The fuel bounds the model
recursion only; every theorem about the loop controls it explicitly. -/
def queryMedrxivLoop (server : Nat → Option (List MedItem)) (terms : List String)
    (maxResults pageSize wrapWidth : Nat) :
    Nat → Nat → List Row → List Row × Nat
  | 0, _, acc => (acc, 0)
  | fuel + 1, cursor, acc =>
    match server cursor with
    | none => (acc, 1)
    | some items =>
      if items = [] then (acc, 1)
      else
        let acc2 := medProcessItemsCapped terms maxResults wrapWidth items acc
        if maxResults ≤ acc2.length ∨ items.length < pageSize then (acc2, 1)
        else
          let p := queryMedrxivLoop server terms maxResults pageSize wrapWidth fuel
            (cursor + items.length) acc2
          (p.1, p.2 + 1)

/-- The function query_medrxiv_papers: paginate from cursor 0 with an empty
accumulator. -/
def query_medrxiv_papers (server : Nat → Option (List MedItem)) (terms : List String)
    (maxResults pageSize wrapWidth fuel : Nat) : List Row × Nat :=
  queryMedrxivLoop server terms maxResults pageSize wrapWidth fuel 0 []

/-- One item of a Europe PMC search result. -/
structure EpmcItem where
  abstractText : Option String := none
  title : Option String := none
  source : Option String := none
  id : Option String := none
  inPMC : Option String := none
  pmcid : Option String := none
  authorString : Option String := none
  doi : Option String := none
  firstPublicationDate : Option String := none
  pubYear : Option String := none
deriving DecidableEq, Repr

/-- One Europe PMC search page: the result list and the nextCursorMark (none
models an absent key). -/
structure EpmcPage where
  results : List EpmcItem
  nextCursorMark : Option String
deriving DecidableEq, Repr

/-- The detail record _epmc_fetch_detail returns: only its abstractText is
consumed by the caller. -/
structure EpmcDetail where
  abstractText : Option String := none
deriving DecidableEq, Repr

/-- An XML element as ElementTree models it: tag, text, tail, children. -/
inductive Xml where
  | node (tag : String) (text : String) (tail : String) (children : List Xml)

/-- The tag of an element. -/
def Xml.tag : Xml → String
  | .node t _ _ _ => t

/-- The text of an element. -/
def Xml.text : Xml → String
  | .node _ tx _ _ => tx

/-- The tail of an element (the text following its end tag). -/
def Xml.tail : Xml → String
  | .node _ _ tl _ => tl

/-- The children of an element. -/
def Xml.children : Xml → List Xml
  | .node _ _ _ cs => cs

mutual

/-- "".join(p.itertext()): the text of the element followed by, for each
child, its itertext and its tail. -/
def xmlItertext : Xml → String
  | .node _ tx _ cs => tx ++ xmlItertextList cs

/-- itertext over a child list. -/
def xmlItertextList : List Xml → String
  | [] => ""
  | c :: cs => xmlItertext c ++ c.tail ++ xmlItertextList cs

end

mutual

/-- element.iter(tag): the elements with the given tag in document order,
the element itself included. -/
def xmlIter (tag : String) : Xml → List Xml
  | .node t tx tl cs =>
    (if t = tag then [Xml.node t tx tl cs] else []) ++ xmlIterList tag cs

/-- iter over a child list. -/
def xmlIterList (tag : String) : List Xml → List Xml
  | [] => []
  | c :: cs => xmlIter tag c ++ xmlIterList tag cs

end

/-- The paragraph texts _epmc_fetch_fulltext extracts: for each of the tags
abstract and body, for each element with that tag, for each paragraph element
under it, the stripped itertext, keeping only the non-empty ones. -/
def epmcExtractParts (root : Xml) : List String :=
  ((["abstract", "body"].map (fun tag =>
      (xmlIter tag root).map (fun el =>
        (xmlIter "p" el).map (fun p =>
          pyStrip (xmlItertext p))))).flatten.flatten).filter (fun t => t ≠ "")

/-- The full text _epmc_fetch_fulltext assembles from a parsed document:
the extracted paragraph texts joined with blank-line separators. -/
def epmcFulltextFromDoc (root : Xml) : String :=
  "\n\n".intercalate (epmcExtractParts root)

/-- The function _epmc_fetch_fulltext. The oracle ftDoc models the HTTP fetch
and XML parse of {source}/{id}/fullTextXML (none covers a request error, a
non-success status and a parse failure). The function refuses unless the
source is exactly PMC and the id is truthy. -/
def epmc_fetch_fulltext (ftDoc : String → String → Option Xml)
    (source : Option String) (extId : Option String) : Option String :=
  if source = some "PMC" ∧ pyOr extId "" ≠ "" then
    match ftDoc "PMC" (extId.getD "") with
    | none => none
    | some root => some (epmcFulltextFromDoc root)
  else none

/-- The function _epmc_fetch_detail. The oracle detail models the HTTP fetch
and JSON decode of {source}/{id} (none covers a request error, a non-success
status, a decode failure and an absent result object). The function refuses
unless both the source and the id are truthy. -/
def epmc_fetch_detail (detail : String → String → Option EpmcDetail)
    (source : Option String) (extId : Option String) : Option EpmcDetail :=
  if pyOr source "" ≠ "" ∧ pyOr extId "" ≠ "" then
    detail (source.getD "") (extId.getD "")
  else none

/-- The abstract-resolution chain of _epmc_process_item: the item abstract,
then the detail-record abstract, then, for PMC-flagged items, the first 2000
characters of the non-empty full text. -/
def epmcResolveAbstract (detail : String → String → Option EpmcDetail)
    (ftDoc : String → String → Option Xml) (item : EpmcItem) : String :=
  let a0 := pyStrip (pyOr item.abstractText "")
  let a1 :=
    if a0 = "" then
      match epmc_fetch_detail detail item.source item.id with
      | some d => pyStrip (pyOr d.abstractText "")
      | none => a0
    else a0
  if a1 = "" ∧ (item.source = some "PMC" ∨ pyOr item.inPMC "N" = "Y" ∨
      pyOr item.pmcid "" ≠ "") then
    match epmc_fetch_fulltext ftDoc item.source item.id with
    | some ft => if ft ≠ "" then String.mk (ft.data.take 2000) else a1
    | none => a1
  else a1

/-- The row-building tail of _epmc_process_item, applied once the abstract is
known to be non-empty. -/
def epmcBuildRows (item : EpmcItem) (abstract : String) (wrapWidth : Nat) :
    List Row :=
  let title := pyStrip (pyOr item.title "")
  let authors := pyStrip (pyOr item.authorString "")
  let doi := pyStrip (pyOr item.doi "")
  let published := safe_date_iso (pyOr item.firstPublicationDate (pyOr item.pubYear ""))
  let internalId := pyStrip (pyOr item.id "")
  let srcCode := pyStrip (pyOr item.source "")
  let paperId :=
    if internalId ≠ "" ∨ srcCode ≠ "" then "EPMC:" ++ srcCode ++ ":" ++ internalId
    else doi
  let wrapped := textwrapWrap (pyReplaceNl abstract) wrapWidth
  wrapped.enum.map (fun ic =>
    { paper_id := paperId
      title := title
      authors := authors
      published := published
      source := "europe_pmc"
      chunk_id := ic.1
      text_chunk := ic.2
      abstract := some abstract
      doi := some doi })

/-- The function _epmc_process_item: resolve the abstract through the fallback
chain; an item whose abstract stays empty contributes no rows. -/
def epmc_process_item (detail : String → String → Option EpmcDetail)
    (ftDoc : String → String → Option Xml) (item : EpmcItem)
    (wrapWidth : Nat) : List Row :=
  let abstract := epmcResolveAbstract detail ftDoc item
  if abstract = "" then [] else epmcBuildRows item abstract wrapWidth

/-- The per-item loop of query_europe_pmc_papers over one page. -/
def epmcProcessItemsCapped (detail : String → String → Option EpmcDetail)
    (ftDoc : String → String → Option Xml) (maxResults wrapWidth : Nat) :
    List EpmcItem → List Row → List Row
  | [], acc => acc
  | it :: its, acc =>
    let acc2 := appendCapped maxResults acc (epmc_process_item detail ftDoc it wrapWidth)
    if maxResults ≤ acc2.length then acc2
    else epmcProcessItemsCapped detail ftDoc maxResults wrapWidth its acc2

/-- The pagination loop of query_europe_pmc_papers. The server oracle maps a
cursorMark to a page; none models a request that _epmc_fetch_page reported as
failed (request error, non-success status or JSON decode failure). The second
component counts the page requests performed. -/
def queryEpmcLoop (server : String → Option EpmcPage)
    (detail : String → String → Option EpmcDetail)
    (ftDoc : String → String → Option Xml) (maxResults wrapWidth : Nat) :
    Nat → String → List Row → List Row × Nat
  | 0, _, acc => (acc, 0)
  | fuel + 1, cursor, acc =>
    match server cursor with
    | none => (acc, 1)
    | some page =>
      if page.results = [] then (acc, 1)
      else
        let acc2 := epmcProcessItemsCapped detail ftDoc maxResults wrapWidth
          page.results acc
        if maxResults ≤ acc2.length then (acc2, 1)
        else
          match page.nextCursorMark with
          | none => (acc2, 1)
          | some nc =>
            if nc = "" ∨ nc = cursor then (acc2, 1)
            else
              let p := queryEpmcLoop server detail ftDoc maxResults wrapWidth fuel
                nc acc2
              (p.1, p.2 + 1)

/-- The function query_europe_pmc_papers: with an empty term list return
immediately with no requests; otherwise paginate from the initial cursor. -/
def query_europe_pmc_papers (server : String → Option EpmcPage)
    (detail : String → String → Option EpmcDetail)
    (ftDoc : String → String → Option Xml) (terms : List String)
    (maxResults wrapWidth fuel : Nat) : List Row × Nat :=
  if terms = [] then ([], 0)
  else queryEpmcLoop server detail ftDoc maxResults wrapWidth fuel "*" []

/-- A record as save_collected_data receives it: an association list from field
names to values; a value of none models Python None, a missing key models a
key the dict does not have. Keys are unique in any record the program builds. -/
abbrev PyDict := List (String × Option String)

/-- The keys of a record. -/
def dictKeys (r : PyDict) : List String := r.map Prod.fst

/-- dict.get(k): none when the key is missing, some the stored value
otherwise. -/
def dictGet (r : PyDict) (k : String) : Option (Option String) :=
  (r.find? (fun kv => kv.1 = k)).map Prod.snd

/-- The preferred schema of save_collected_data. -/
def preferredFields : List String :=
  ["paper_id", "source", "title", "authors", "published", "chunk_id",
   "text_chunk", "pdf_url", "abstract", "doi"]

/-- The union of the field names across all records (the set `keys` of
save_collected_data). -/
def unionKeys (data : List PyDict) : List String :=
  ((data.map dictKeys).flatten).dedup

/-- The field-name list of save_collected_data: the preferred names present in
the key union, in preferred order, then the remaining names of the union in
sorted order. -/
def fieldnames (data : List PyDict) : List String :=
  if data = [] then []
  else
    preferredFields.filter (fun k => k ∈ unionKeys data) ++
      (List.insertionSort (fun a b => a ≤ b) (unionKeys data)).filter
        (fun k => ¬ k ∈ preferredFields)

/-- re.sub of a whitespace run to a single space, one pass over the
characters; prevSpace records whether the previous character was part of a
whitespace run already replaced. -/
def collapseWs : Bool → List Char → List Char
  | _, [] => []
  | prevSpace, c :: cs =>
    if isPySpace c then
      if prevSpace then collapseWs true cs else ' ' :: collapseWs true cs
    else c :: collapseWs false cs

/-- The function _normalize_cell, applied to the result of row.get(k, ""):
a missing key (outer none) passes the empty-string default through; a stored
None becomes the empty string; a stored string has every whitespace run
collapsed to a single space and is then stripped. -/
def normalizeCell : Option (Option String) → String
  | none => ""
  | some none => ""
  | some (some s) => pyStrip (String.mk (collapseWs false s.data))

/-- One emitted CSV row: every field name in the fixed order, paired with its
normalized cell. -/
def emitRow (fns : List String) (r : PyDict) : List (String × String) :=
  fns.map (fun k => (k, normalizeCell (dictGet r k)))

/-- The function save_collected_data, modelled as the header row and the data
rows it writes. -/
def save_collected_data (data : List PyDict) :
    List String × List (List (String × String)) :=
  (fieldnames data, data.map (emitRow (fieldnames data)))

/-- Stated from the spec, for comparison with the code: a term occurs as a
case-insensitive substring of a text when its lowercasing occurs in the
lowercasing of the text. -/
def caseInsensSubstr (needle hay : String) : Bool :=
  hasSubstring (pyLower needle).data (pyLower hay).data

/-- Stated from the spec, for comparison with the code: a string is a valid
ISO-8601 calendar date when it parses as YYYY-MM-DD. -/
def isIsoCalendarDate (s : String) : Bool := (parseIsoDate s).isSome

/-- A medRxiv row used in concrete evaluations: one chunk from one matching
item. -/
def medItemA : MedItem := { abstract := some "a", title := some "t" }

/-- A page of 100 copies of the item above. -/
def pageA100 : List MedItem := List.replicate 100 medItemA

/-- A page of 37 copies of the item above. -/
def pageA37 : List MedItem := List.replicate 37 medItemA

/-- A medRxiv server yielding pages of sizes 100, 100 and 37 at the cursors
the loop requests. -/
def medServerScript : Nat → Option (List MedItem) :=
  fun c => if c = 0 then some pageA100 else if c = 100 then some pageA100
    else if c = 200 then some pageA37 else some []

/-- A medRxiv server whose every request ultimately fails. -/
def medServerFail : Nat → Option (List MedItem) := fun _ => none

/-- A detail oracle that never returns a record. -/
def detailNone : String → String → Option EpmcDetail := fun _ _ => none

/-- A full-text oracle that never returns a document. -/
def ftNone : String → String → Option Xml := fun _ _ => none

/-- A Europe PMC server whose every request ultimately fails. -/
def epmcServerFail : String → Option EpmcPage := fun _ => none

/-- A Europe PMC item with a plain abstract, used in concrete evaluations. -/
def epmcItemPlain : EpmcItem :=
  { abstractText := some "alpha", source := some "MED", id := some "1" }

/-- A Europe PMC server that answers every request with one item and repeats
the cursor it was given the initial cursor back as nextCursorMark. -/
def epmcServerRepeat : String → Option EpmcPage :=
  fun c => if c = "*" then some { results := [epmcItemPlain], nextCursorMark := some "*" }
    else none

/-- A full-text document with one abstract paragraph, used in concrete
evaluations. -/
def xmlDocHello : Xml :=
  Xml.node "article" "" "" [Xml.node "abstract" "" "" [Xml.node "p" "Hello world." "" []]]

/-- A full-text oracle that always returns the document above. -/
def ftHello : String → String → Option Xml := fun _ _ => some xmlDocHello

/-- A Europe PMC item with no abstract anywhere, a non-PMC source code and a
populated PMC identifier. -/
def epmcItemPmcid : EpmcItem :=
  { abstractText := none, source := some "MED", id := some "123",
    pmcid := some "PMC123" }

/-- A Europe PMC item with no abstract anywhere and the explicit PMC source
code. -/
def epmcItemPmcSrc : EpmcItem :=
  { abstractText := none, source := some "PMC", id := some "7" }

/-- A medRxiv item whose title matches a term but whose abstract is empty. -/
def medItemEmptyAbs : MedItem := { abstract := some "", title := some "cancer study" }

/-- A medRxiv item with a matching, chunkable abstract. -/
def medItemCancer : MedItem :=
  { abstract := some "cancer risk", title := some "screening" }

/-- A medRxiv row with a DOI, first in precedence order in the concrete
deduplication example. -/
def rowMed : Row :=
  { paper_id := "10.1/x", title := "T", authors := "", published := "2024-01-02",
    source := "medrxiv", chunk_id := 0, text_chunk := "hello",
    doi := some "10.1/x", abstract := some "hello" }

/-- A Europe PMC row carrying the same dedup key as the row above. -/
def rowEpmc : Row :=
  { paper_id := "EPMC:MED:1", title := "T", authors := "", published := "2024-01-02",
    source := "europe_pmc", chunk_id := 0, text_chunk := "hello",
    doi := some "10.1/x", abstract := some "hello" }

/-- The shared dedup key of the two rows above. -/
def rowKeyHello : String × String × Nat × String := ("10.1/x", "2024-01-02", 0, "hello")

/-- Concrete records for evaluating save_collected_data. -/
def dataW : List PyDict :=
  [[("title", some "a  b"), ("zzz", some " x\ty ")], [("paper_id", some "p1")]]

/-- The response script of the retry scenario: 503 twice, then 200 with a
decodable body. -/
def respScript : Nat → Resp :=
  fun i => if i ≤ 1 then { status := 503, body := none }
    else { status := 200, body := some "ok" }

/-- Words used in concrete chunk-reconstruction evaluations. -/
def wsW : List (List Char) := [['a', 'b'], ['c'], ['d', 'e']]

/-- A medRxiv item whose abstract is the joined word list above. -/
def medItemW : MedItem := { abstract := some "ab c de", title := some "t" }

/-- A Europe PMC item whose abstract is the joined word list above. -/
def epmcItemW : EpmcItem :=
  { abstractText := some "ab c de", source := some "MED", id := some "9" }

theorem dedupeRowsAux_sublist :
    ∀ (rows : List Row) (seen : List (String × String × Nat × String)),
      (dedupeRowsAux rows seen).Sublist rows := by
  intro rows
  induction rows with
  | nil => intro seen; simp [dedupeRowsAux]
  | cons r rs ih =>
    intro seen
    by_cases h : rowKey r ∈ seen
    · simpa [dedupeRowsAux, h] using (ih seen).cons r
    · simpa [dedupeRowsAux, h] using (ih (rowKey r :: seen)).cons₂ r

theorem filterKey_cons (k : String × String × Nat × String) (r : Row) (l : List Row) :
    filterKey k (r :: l) =
      if rowKey r = k then r :: filterKey k l else filterKey k l := by
  by_cases h : rowKey r = k <;> simp [filterKey, List.filter_cons, h]

theorem dedupeRowsAux_filterKey (k : String × String × Nat × String) :
    ∀ (rows : List Row) (seen : List (String × String × Nat × String)),
      filterKey k (dedupeRowsAux rows seen) =
        if k ∈ seen then [] else (filterKey k rows).take 1 := by
  intro rows
  induction rows with
  | nil => intro seen; by_cases h : k ∈ seen <;> simp [dedupeRowsAux, filterKey, h]
  | cons r rs ih =>
    intro seen
    by_cases hseen : rowKey r ∈ seen
    · rw [dedupeRowsAux, if_pos hseen, ih seen]
      by_cases hk : k ∈ seen
      · simp [hk]
      · have hrk : ¬ rowKey r = k := fun h => hk (h ▸ hseen)
        simp [hk, filterKey_cons, hrk]
    · rw [dedupeRowsAux, if_neg hseen]
      rw [filterKey_cons]
      by_cases hrk : rowKey r = k
      · subst hrk
        have htail := ih (rowKey r :: seen)
        rw [if_pos (List.mem_cons_self _ _)] at htail
        rw [if_pos rfl, htail, if_neg hseen, filterKey_cons, if_pos rfl]
        simp
      · have htail := ih (rowKey r :: seen)
        have hmem : (k ∈ rowKey r :: seen) ↔ k ∈ seen := by
          rw [List.mem_cons]
          constructor
          · rintro (h | h)
            · exact absurd h.symm hrk
            · exact h
          · exact Or.inr
        rw [if_neg hrk, htail, filterKey_cons, if_neg hrk]
        by_cases hk : k ∈ seen
        · rw [if_pos (hmem.mpr hk), if_pos hk]
        · rw [if_neg (fun h => hk (hmem.mp h)), if_neg hk]

/-- Claim C1: dedupe_rows keys each record by (doi or paper_id, published,
chunk_id, text_chunk), retains exactly the first occurrence of each key in
input order and drops every later record with the same key (its output is a
sublist of the input whose records with key k are the first input record with
key k); hence on a concatenation A ++ B of per-source results in precedence
order, a key occurring in A is represented by its first occurrence in A. -/
theorem dedupe_rows_spec (rows : List Row) :
    (dedupe_rows rows).Sublist rows ∧
    (∀ k, filterKey k (dedupe_rows rows) = (filterKey k rows).take 1) ∧
    (∀ (A B : List Row) (k : String × String × Nat × String), rows = A ++ B →
      (∃ a ∈ A, rowKey a = k) →
      filterKey k (dedupe_rows rows) = (filterKey k A).take 1) := by
  refine ⟨dedupeRowsAux_sublist rows [], fun k => ?_, fun A B k hAB hex => ?_⟩
  · simpa using dedupeRowsAux_filterKey k rows []
  · have h1 : filterKey k (dedupe_rows rows) = (filterKey k rows).take 1 := by
      simpa using dedupeRowsAux_filterKey k rows []
    obtain ⟨a, haA, hak⟩ := hex
    have hne : filterKey k A ≠ [] := by
      intro hnil
      have : a ∈ filterKey k A := by
        simp [filterKey, List.mem_filter, haA, hak]
      rw [hnil] at this
      exact List.not_mem_nil a this
    obtain ⟨c, cs, hc⟩ := List.exists_cons_of_ne_nil hne
    have hsplit : filterKey k rows = filterKey k A ++ filterKey k B := by
      rw [hAB, filterKey, List.filter_append]; rfl
    rw [h1, hsplit, hc]
    simp

/-- Witness for C1 at concrete rows: a medRxiv row and a Europe PMC row with
the same key; the deduplicated output keeps the medRxiv one. -/
theorem dedupe_rows_spec_witness :
    (∃ a ∈ [rowMed], rowKey a = rowKeyHello) ∧
    filterKey rowKeyHello (dedupe_rows ([rowMed] ++ [rowEpmc])) =
      (filterKey rowKeyHello [rowMed]).take 1 :=
  ⟨by decide, (dedupe_rows_spec ([rowMed] ++ [rowEpmc])).2.2 [rowMed] [rowEpmc]
    rowKeyHello rfl (by decide)⟩

theorem retryable_ne_200 (s : Nat) (h : retryable s = true) : s ≠ 200 := by
  simp only [retryable, Bool.or_eq_true, decide_eq_true_eq] at h
  rcases h with ((((h | h) | h) | h) | h) <;> omega

theorem requestJsonGo_exhaust (responses : Nat → Resp) (retries : Nat) (backoff : ℚ)
    (hall : ∀ i, retryable (responses i).status = true) :
    ∀ (fuel i : Nat), i + fuel = retries + 1 →
      (requestJsonGo responses retries backoff i fuel).1 = none ∧
      (requestJsonGo responses retries backoff i fuel).2.length = retries - i := by
  intro fuel
  induction fuel with
  | zero =>
    intro i hi
    have : retries - i = 0 := by omega
    simp [requestJsonGo, this]
  | succ fuel ih =>
    intro i hi
    have h200 : ¬ (responses i).status = 200 := retryable_ne_200 _ (hall i)
    by_cases hle : i + 1 ≤ retries
    · have hrec := ih (i + 1) (by omega)
      simp only [requestJsonGo, h200, if_false, hall i, hle, and_self, if_true,
        true_and, if_pos]
      refine ⟨hrec.1, ?_⟩
      simp only [List.length_cons, hrec.2]
      omega
    · have hcond : ¬ (retryable (responses i).status = true ∧ i + 1 ≤ retries) :=
        fun h => hle h.2
      have : retries - i = 0 := by omega
      simp [requestJsonGo, h200, hcond, this]

/-- Claim C3: _request_json returns (none, no sleeps) on a non-retryable
non-success first status and on a JSON decode failure of a 200 response; with
every response retryable it exhausts the cap, returning none after exactly
retries sleeps; and on statuses 503, 503, 200 with a cap of at least 3 it
succeeds after exactly two backoff sleeps, backoff*1 then backoff*2, which are
increasing for a positive backoff. -/
theorem request_json_spec (responses : Nat → Resp) (retries : Nat) (backoff : ℚ)
    (j : String) :
    ((responses 0).status ≠ 200 → retryable (responses 0).status = false →
      request_json responses retries backoff = (none, [])) ∧
    ((responses 0).status = 200 → (responses 0).body = none →
      request_json responses retries backoff = (none, [])) ∧
    ((∀ i, retryable (responses i).status = true) →
      (request_json responses retries backoff).1 = none ∧
      (request_json responses retries backoff).2.length = retries) ∧
    ((responses 0).status = 503 → (responses 1).status = 503 →
      responses 2 = { status := 200, body := some j } → 3 ≤ retries →
      request_json responses retries backoff = (some j, [backoff * 1, backoff * 2]) ∧
      (0 < backoff → backoff * 1 < backoff * 2)) := by
  refine ⟨fun h200 hretry => ?_, fun h200 hbody => ?_, fun hall => ?_,
    fun h0 h1 h2 hr => ⟨?_, fun hpos => by nlinarith⟩⟩
  · have hcond : ¬ (retryable (responses 0).status = true ∧ 0 + 1 ≤ retries) := by
      rintro ⟨hc, -⟩; rw [hretry] at hc; exact Bool.false_ne_true hc
    simp [request_json, requestJsonGo, h200, hcond]
  · simp [request_json, requestJsonGo, h200, hbody]
  · simpa using requestJsonGo_exhaust responses retries backoff hall (retries + 1) 0
      (by omega)
  · obtain ⟨m, rfl⟩ : ∃ m, retries = m + 3 := ⟨retries - 3, by omega⟩
    have e0 : ¬ (responses 0).status = 200 := by rw [h0]; omega
    have e1 : ¬ (responses 1).status = 200 := by rw [h1]; omega
    have r0 : retryable (responses 0).status = true := by rw [h0]; rfl
    have r1 : retryable (responses 1).status = true := by rw [h1]; rfl
    have l0 : 0 + 1 ≤ m + 3 := by omega
    have l1 : 1 + 1 ≤ m + 3 := by omega
    show requestJsonGo responses (m + 3) backoff 0 (m + 3 + 1) = _
    rw [requestJsonGo]
    simp only [e0, if_false, r0, l0, and_self, if_true, true_and, if_pos]
    rw [show m + 3 = (m + 2) + 1 from rfl, requestJsonGo]
    simp only [e1, if_false, r1, l1, and_self, if_true, true_and, if_pos]
    rw [show m + 2 = (m + 1) + 1 from rfl, requestJsonGo]
    simp only [h2, if_pos]
    norm_num

/-- Witness for C3 at the concrete response script 503, 503, 200 with cap 3
and backoff 3/2: success with sleeps 3/2 and 3. -/
theorem request_json_spec_witness :
    request_json respScript 3 (3/2 : ℚ) = (some "ok", [(3/2 : ℚ) * 1, (3/2 : ℚ) * 2]) ∧
    ((0 : ℚ) < 3/2 → (3/2 : ℚ) * 1 < (3/2 : ℚ) * 2) :=
  (request_json_spec respScript 3 (3/2) "ok").2.2.2 (by decide) (by decide)
    (by decide) (by omega)

theorem renderIsoDate_ne_empty (ymd : Nat × Nat × Nat) : renderIsoDate ymd ≠ "" := by
  obtain ⟨y, m, d⟩ := ymd
  intro h
  have h2 := congrArg String.length h
  rw [renderIsoDate] at h2
  simp only [String.length_append] at h2
  have hdash : ("-" : String).length = 1 := rfl
  have hnil : ("" : String).length = 0 := rfl
  simp only [hdash, hnil] at h2
  omega

/-- Counterexample for C6 as stated: on the unparseable date string "notadate"
the emitted published value is the original string, which is neither empty nor
a valid ISO-8601 calendar date. -/
theorem safe_date_iso_cex :
    safe_date_iso "notadate" = "notadate" ∧
    ¬ (safe_date_iso "notadate" = "" ∨
        isIsoCalendarDate (safe_date_iso "notadate") = true) := by
  decide

/-- Claim C6 (amended): the published field is empty exactly when the source
date string is empty; when the first 10 characters of the source string parse
as a calendar date it is rendered canonically; when the source string is
non-empty and unparseable, the published field is the source string unchanged
rather than the empty string. -/
theorem safe_date_iso_amended (s : String) :
    (safe_date_iso s = "" ↔ s = "") ∧
    (∀ ymd, parseIsoDate (String.mk (s.data.take 10)) = some ymd →
      safe_date_iso s = renderIsoDate ymd) ∧
    (s ≠ "" → parseIsoDate (String.mk (s.data.take 10)) = none →
      safe_date_iso s = s) := by
  refine ⟨⟨fun h => ?_, fun h => by simp [safe_date_iso, h]⟩, fun ymd hp => ?_,
    fun hs hp => ?_⟩
  · by_contra hs
    rw [safe_date_iso, if_neg hs] at h
    cases hp : parseIsoDate (String.mk (s.data.take 10)) with
    | some ymd => rw [hp] at h; exact renderIsoDate_ne_empty ymd h
    | none => rw [hp] at h; exact hs h
  · have hs : s ≠ "" := by
      intro he
      subst he
      have hnone : parseIsoDate (String.mk (("" : String).data.take 10)) = none := rfl
      rw [hnone] at hp
      cases hp
    rw [safe_date_iso, if_neg hs, hp]
  · rw [safe_date_iso, if_neg hs, hp]

/-- Witness for C6 (amended) at the concrete unparseable string "bad". -/
theorem safe_date_iso_amended_witness :
    ("bad" : String) ≠ "" ∧ safe_date_iso "bad" = "bad" :=
  ⟨by decide, (safe_date_iso_amended "bad").2.2 (by decide) (by decide)⟩

/-- Claim C4: the medRxiv pagination loop stops requesting further pages
exactly when the request fails after retries (partial results are returned,
no failure propagates), or the page has no items, or after processing a page
the accumulated count has reached max_results or the page was shorter than
page_size; in every other case it requests the next page at the advanced
cursor. On the concrete server with pages of sizes 100, 100, 37 and page size
100, exactly 3 page requests occur, collecting 237 rows. -/
theorem query_medrxiv_pagination_spec
    (server : Nat → Option (List MedItem)) (terms : List String)
    (maxResults pageSize wrapWidth fuel cursor : Nat) (acc : List Row) :
    (server cursor = none →
      queryMedrxivLoop server terms maxResults pageSize wrapWidth (fuel + 1) cursor acc
        = (acc, 1)) ∧
    (server cursor = some [] →
      queryMedrxivLoop server terms maxResults pageSize wrapWidth (fuel + 1) cursor acc
        = (acc, 1)) ∧
    (∀ items, server cursor = some items → items ≠ [] →
      (maxResults ≤ (medProcessItemsCapped terms maxResults wrapWidth items acc).length ∨
        items.length < pageSize) →
      queryMedrxivLoop server terms maxResults pageSize wrapWidth (fuel + 1) cursor acc
        = (medProcessItemsCapped terms maxResults wrapWidth items acc, 1)) ∧
    (∀ items, server cursor = some items → items ≠ [] →
      ¬ (maxResults ≤ (medProcessItemsCapped terms maxResults wrapWidth items acc).length ∨
        items.length < pageSize) →
      queryMedrxivLoop server terms maxResults pageSize wrapWidth (fuel + 1) cursor acc
        = ((queryMedrxivLoop server terms maxResults pageSize wrapWidth fuel
              (cursor + items.length)
              (medProcessItemsCapped terms maxResults wrapWidth items acc)).1,
           (queryMedrxivLoop server terms maxResults pageSize wrapWidth fuel
              (cursor + items.length)
              (medProcessItemsCapped terms maxResults wrapWidth items acc)).2 + 1)) ∧
    ((query_medrxiv_papers medServerScript [] 500 100 500 10).2 = 3 ∧
      (query_medrxiv_papers medServerScript [] 500 100 500 10).1.length = 237) := by
  refine ⟨fun hfail => ?_, fun hempty => ?_, fun items hit hne hstop => ?_,
    fun items hit hne hgo => ?_, by decide, by decide⟩
  · rw [queryMedrxivLoop, hfail]
  · rw [queryMedrxivLoop, hempty]; simp
  · rw [queryMedrxivLoop, hit]
    simp only [hne, if_neg, if_false, hstop, if_true]
  · rw [queryMedrxivLoop, hit]
    simp only [hne, if_neg, if_false, hgo, if_true]

/-- Witness for C4 at a concrete failing server: the loop returns the partial
results (here none were collected yet) after the single failed request. -/
theorem query_medrxiv_pagination_spec_witness :
    medServerFail 0 = none ∧
    queryMedrxivLoop medServerFail [] 500 100 500 5 0 [] = ([], 1) :=
  ⟨rfl, (query_medrxiv_pagination_spec medServerFail [] 500 100 500 4 0 []).1 rfl⟩

/-- Counterexample for C7 as stated: a server whose request fails makes the
loop stop after that single request with the partial results, although no
page was returned at all, so none of the four enumerated conditions (empty
result list, cap reached, repeated cursor, absent cursor) holds. -/
theorem query_epmc_pagination_cex :
    queryEpmcLoop epmcServerFail detailNone ftNone 500 500 5 "*" [] = ([], 1) ∧
    epmcServerFail "*" = none :=
  ⟨by decide, rfl⟩

/-- Claim C7 (amended): the Europe PMC pagination loop stops requesting
further pages exactly when the page fetch fails (request error, non-success
status or JSON decode failure; partial results are returned), or the result
list is empty, or the accumulated count has reached max_results, or the
nextCursorMark is absent, or it is falsy or equal to the cursor just used; in
every other case it requests the next page at the returned cursor. In
particular, on the concrete server that repeats the cursor, the loop stops
after one request even though the cap is not reached. -/
theorem query_epmc_pagination_amended
    (server : String → Option EpmcPage) (detail : String → String → Option EpmcDetail)
    (ftDoc : String → String → Option Xml) (maxResults wrapWidth fuel : Nat)
    (cursor : String) (acc : List Row) :
    (server cursor = none →
      queryEpmcLoop server detail ftDoc maxResults wrapWidth (fuel + 1) cursor acc
        = (acc, 1)) ∧
    (∀ results ncm, server cursor = some { results := results, nextCursorMark := ncm } →
      results = [] →
      queryEpmcLoop server detail ftDoc maxResults wrapWidth (fuel + 1) cursor acc
        = (acc, 1)) ∧
    (∀ results ncm, server cursor = some { results := results, nextCursorMark := ncm } →
      results ≠ [] →
      maxResults ≤ (epmcProcessItemsCapped detail ftDoc maxResults wrapWidth results acc).length →
      queryEpmcLoop server detail ftDoc maxResults wrapWidth (fuel + 1) cursor acc
        = (epmcProcessItemsCapped detail ftDoc maxResults wrapWidth results acc, 1)) ∧
    (∀ results, server cursor = some { results := results, nextCursorMark := none } →
      results ≠ [] →
      ¬ maxResults ≤ (epmcProcessItemsCapped detail ftDoc maxResults wrapWidth results acc).length →
      queryEpmcLoop server detail ftDoc maxResults wrapWidth (fuel + 1) cursor acc
        = (epmcProcessItemsCapped detail ftDoc maxResults wrapWidth results acc, 1)) ∧
    (∀ results nc, server cursor = some { results := results, nextCursorMark := some nc } →
      results ≠ [] →
      ¬ maxResults ≤ (epmcProcessItemsCapped detail ftDoc maxResults wrapWidth results acc).length →
      (nc = "" ∨ nc = cursor) →
      queryEpmcLoop server detail ftDoc maxResults wrapWidth (fuel + 1) cursor acc
        = (epmcProcessItemsCapped detail ftDoc maxResults wrapWidth results acc, 1)) ∧
    (∀ results nc, server cursor = some { results := results, nextCursorMark := some nc } →
      results ≠ [] →
      ¬ maxResults ≤ (epmcProcessItemsCapped detail ftDoc maxResults wrapWidth results acc).length →
      ¬ (nc = "" ∨ nc = cursor) →
      queryEpmcLoop server detail ftDoc maxResults wrapWidth (fuel + 1) cursor acc
        = ((queryEpmcLoop server detail ftDoc maxResults wrapWidth fuel nc
              (epmcProcessItemsCapped detail ftDoc maxResults wrapWidth results acc)).1,
           (queryEpmcLoop server detail ftDoc maxResults wrapWidth fuel nc
              (epmcProcessItemsCapped detail ftDoc maxResults wrapWidth results acc)).2 + 1)) ∧
    ((queryEpmcLoop epmcServerRepeat detailNone ftNone 500 500 5 "*" []).2 = 1 ∧
      (queryEpmcLoop epmcServerRepeat detailNone ftNone 500 500 5 "*" []).1.length < 500) := by
  refine ⟨fun hfail => ?_, fun results ncm hp hemp => ?_, fun results ncm hp hne hcap => ?_,
    fun results hp hne hcap => ?_, fun results nc hp hne hcap hrep => ?_,
    fun results nc hp hne hcap hrep => ?_, by decide, by decide⟩
  · rw [queryEpmcLoop, hfail]
  · rw [queryEpmcLoop, hp]; simp [hemp]
  · rw [queryEpmcLoop, hp]; simp only [hne, if_neg, if_false, hcap, if_true]
  · rw [queryEpmcLoop, hp]; simp only [hne, if_neg, if_false, hcap, if_true]
  · rw [queryEpmcLoop, hp]; simp only [hne, if_neg, if_false, hcap, if_true, hrep]
  · rw [queryEpmcLoop, hp]; simp only [hne, if_neg, if_false, hcap, if_true, hrep]

/-- Witness for C7 (amended) on the concrete repeating server: the returned
cursor equals the cursor just used, so the loop stops with the rows of the
single page after exactly one request. -/
theorem query_epmc_pagination_amended_witness :
    queryEpmcLoop epmcServerRepeat detailNone ftNone 500 500 5 "*" []
      = (epmcProcessItemsCapped detailNone ftNone 500 500 [epmcItemPlain] [], 1) :=
  (query_epmc_pagination_amended epmcServerRepeat detailNone ftNone 500 500 4 "*"
    []).2.2.2.2.1 [epmcItemPlain] "*" rfl (by decide) (by decide) (Or.inr rfl)

/-- Claim C10: with an empty term list query_europe_pmc_papers returns the
empty record list immediately with zero page requests, while the medRxiv item
filter keeps every item when the term list is empty: the item then yields
exactly one row per chunk of its normalized abstract, whatever its content. -/
theorem query_epmc_empty_terms_spec
    (server : String → Option EpmcPage) (detail : String → String → Option EpmcDetail)
    (ftDoc : String → String → Option Xml) (maxResults wrapWidth fuel : Nat) :
    query_europe_pmc_papers server detail ftDoc [] maxResults wrapWidth fuel = ([], 0) ∧
    (∀ (item : MedItem) (w : Nat),
      (process_medrxiv_item item [] w).length =
        (textwrapWrap (pyReplaceNl (medAbstract item)) w).length) := by
  constructor
  · rfl
  · intro item w
    simp [process_medrxiv_item, medBuildRows, List.enum_length]

/-- Counterexample for C5 as stated: an item with empty abstractText, a
populated PMC identifier and a paragraph-bearing full-text document available
from the oracle nevertheless contributes no rows, because
_epmc_fetch_fulltext refuses any item whose source code is not exactly PMC,
while the claimed substitute abstract (the first 2000 characters of the
paragraph text) is non-empty. -/
theorem epmc_fulltext_fallback_cex :
    epmcItemPmcid.pmcid = some "PMC123" ∧
    epmc_process_item detailNone ftHello epmcItemPmcid 500 = [] ∧
    epmcFulltextFromDoc xmlDocHello = "Hello world." := by
  decide

/-- Claim C5 (amended): for an item whose abstract is empty after the detail
lookup, the full-text fallback produces a substitute abstract only when the
item source code is exactly PMC and its id is truthy: the substitute is then
the first 2000 characters of the blank-line-joined paragraph texts extracted
from the abstract and body sections of the full-text document, and the rows
are built by chunking it; an item that is PMC-flagged only through inPMC or a
pmcid but carries a different source code gets no substitute abstract. -/
theorem epmc_fulltext_fallback_amended
    (detail : String → String → Option EpmcDetail)
    (ftDoc : String → String → Option Xml) (item : EpmcItem) (root : Xml)
    (width : Nat)
    (h0 : pyStrip (pyOr item.abstractText "") = "")
    (hdet : ∀ d, epmc_fetch_detail detail item.source item.id = some d →
      pyStrip (pyOr d.abstractText "") = "")
    (hsrc : item.source = some "PMC")
    (hid : pyOr item.id "" ≠ "")
    (hdoc : ftDoc "PMC" (item.id.getD "") = some root)
    (hft : epmcFulltextFromDoc root ≠ "") :
    epmcResolveAbstract detail ftDoc item
      = String.mk ((epmcFulltextFromDoc root).data.take 2000) ∧
    epmc_process_item detail ftDoc item width
      = epmcBuildRows item (String.mk ((epmcFulltextFromDoc root).data.take 2000))
          width := by
  have ha1 : (if pyStrip (pyOr item.abstractText "") = "" then
      match epmc_fetch_detail detail item.source item.id with
      | some d => pyStrip (pyOr d.abstractText "")
      | none => pyStrip (pyOr item.abstractText "")
      else pyStrip (pyOr item.abstractText "")) = "" := by
    rw [if_pos h0]
    cases hd : epmc_fetch_detail detail item.source item.id with
    | some d => exact hdet d hd
    | none => exact h0
  have hfull : epmc_fetch_fulltext ftDoc item.source item.id
      = some (epmcFulltextFromDoc root) := by
    rw [epmc_fetch_fulltext, if_pos ⟨hsrc, hid⟩, hdoc]
  have hres : epmcResolveAbstract detail ftDoc item
      = String.mk ((epmcFulltextFromDoc root).data.take 2000) := by
    rw [epmcResolveAbstract]
    simp only [ha1]
    rw [if_pos ⟨trivial, Or.inl hsrc⟩, hfull]
    simp [hft]
  refine ⟨hres, ?_⟩
  have hne : String.mk ((epmcFulltextFromDoc root).data.take 2000) ≠ "" := by
    intro he
    have hd := congrArg String.data he
    simp only [List.take_eq_nil_iff] at hd
    rcases hd with hd | hd
    · cases hd
    · exact hft (by cases hfe : epmcFulltextFromDoc root with
        | mk l => rw [hfe] at hd; cases hd; rfl)
  have hstep : epmc_process_item detail ftDoc item width =
      if String.mk ((epmcFulltextFromDoc root).data.take 2000) = "" then []
      else epmcBuildRows item (String.mk ((epmcFulltextFromDoc root).data.take 2000))
        width := by
    simp only [epmc_process_item, hres]
  rw [hstep, if_neg hne]

/-- Witness for C5 (amended) at a concrete PMC-sourced item and a concrete
one-paragraph full-text document. -/
theorem epmc_fulltext_fallback_amended_witness :
    epmcResolveAbstract detailNone ftHello epmcItemPmcSrc
      = String.mk ((epmcFulltextFromDoc xmlDocHello).data.take 2000) :=
  (epmc_fulltext_fallback_amended detailNone ftHello epmcItemPmcSrc xmlDocHello 500
    (by decide) (fun d hd => by simp [epmc_fetch_detail, detailNone] at hd)
    rfl (by decide) rfl (by decide)).1

theorem splitWordsAux_eq_nil_iff :
    ∀ (l cur : List Char),
      splitWordsAux l cur = [] ↔ (cur = [] ∧ ∀ c ∈ l, isPySpace c = true) := by
  intro l
  induction l with
  | nil =>
    intro cur
    by_cases h : cur = [] <;> simp [splitWordsAux, h]
  | cons c cs ih =>
    intro cur
    by_cases hc : isPySpace c = true
    · by_cases hcur : cur = []
      · simp [splitWordsAux, hc, hcur, ih, List.forall_mem_cons]
      · simp [splitWordsAux, hc, hcur]
    · simp [splitWordsAux, hc, ih, List.forall_mem_cons]

theorem splitWordsAux_forall_ne_nil :
    ∀ (l cur : List Char) (w : List Char), w ∈ splitWordsAux l cur → w ≠ [] := by
  intro l
  induction l with
  | nil =>
    intro cur w hw
    by_cases h : cur = []
    · simp [splitWordsAux, h] at hw
    · simp [splitWordsAux, h] at hw
      simp [hw, h]
  | cons c cs ih =>
    intro cur w hw
    by_cases hc : isPySpace c = true
    · by_cases hcur : cur = []
      · exact ih [] w (by simpa [splitWordsAux, hc, hcur] using hw)
      · simp only [splitWordsAux, hc, if_true, hcur, if_false, List.mem_cons] at hw
        rcases hw with hw | hw
        · simp [hw, hcur]
        · exact ih [] w hw
    · exact ih (c :: cur) w (by simpa [splitWordsAux, hc] using hw)

theorem wrapWords_eq_nil_iff (width : Nat) :
    ∀ (ws : List (List Char)) (cur : List Char), (∀ w ∈ ws, w ≠ []) →
      (wrapWords width ws cur = [] ↔ (ws = [] ∧ cur = [])) := by
  intro ws
  induction ws with
  | nil =>
    intro cur hws
    by_cases h : cur = [] <;> simp [wrapWords, h]
  | cons w ws ih =>
    intro cur hws
    have hw : w ≠ [] := hws w (List.mem_cons_self w ws)
    have hrest : ∀ x ∈ ws, x ≠ [] := fun x hx => hws x (List.mem_cons_of_mem w hx)
    by_cases hcur : cur = []
    · simp [wrapWords, hcur, ih w hrest, hw]
    · by_cases hfit : cur.length + 1 + w.length ≤ width
      · have hne2 : cur ++ ' ' :: w ≠ [] := by simp
        simp [wrapWords, hcur, hfit, ih (cur ++ ' ' :: w) hrest, hne2]
      · simp [wrapWords, hcur, hfit]

theorem isPySpace_replaceNlChar (c : Char) :
    isPySpace (if c = '\n' then ' ' else c) = isPySpace c := by
  by_cases h : c = '\n'
  · rw [if_pos h, h]; decide
  · rw [if_neg h]

theorem textwrapWrap_ne_nil_iff (s : String) (width : Nat) :
    textwrapWrap (pyReplaceNl s) width ≠ [] ↔
      ∃ c ∈ s.data, isPySpace c = false := by
  rw [textwrapWrap, pyWrap]
  rw [ne_eq, List.map_eq_nil_iff]
  rw [wrapWords_eq_nil_iff width (splitWords (pyReplaceNl s).data) []
    (fun w hw => splitWordsAux_forall_ne_nil (pyReplaceNl s).data [] w hw)]
  rw [splitWords, splitWordsAux_eq_nil_iff]
  constructor
  · intro h
    by_contra hno
    push_neg at hno
    refine h ⟨⟨rfl, fun c hc => ?_⟩, rfl⟩
    rw [pyReplaceNl] at hc
    simp only [List.mem_map] at hc
    obtain ⟨d, hd, hdc⟩ := hc
    rw [← hdc, isPySpace_replaceNlChar]
    rcases Bool.eq_false_or_eq_true (isPySpace d) with hb | hb
    · exact hb
    · exact absurd hb (hno d hd)
  · rintro ⟨c, hc, hcf⟩ ⟨⟨-, hall⟩, -⟩
    have hmem : (if c = '\n' then ' ' else c) ∈ (pyReplaceNl s).data := by
      rw [pyReplaceNl]
      exact List.mem_map_of_mem _ hc
    have := hall _ hmem
    rw [isPySpace_replaceNlChar] at this
    rw [hcf] at this
    cases this

/-- Counterexample for C9 as stated: with term list ["cancer"], an item whose
title matches the term but whose abstract is empty passes the filter yet
contributes no rows (an empty abstract yields zero chunks), so "contributes
rows" and "term list empty or some term matches case-insensitively" are not
equivalent. -/
theorem medrxiv_filter_cex :
    process_medrxiv_item medItemEmptyAbs ["cancer"] 500 = [] ∧
    caseInsensSubstr "cancer"
      (medTitle medItemEmptyAbs ++ " " ++ medAbstract medItemEmptyAbs) = true ∧
    (["cancer"] : List String) ≠ [] := by
  decide

/-- Claim C9 (amended): assuming every term is already lowercase (the shape
the term loader supplies), a medRxiv item contributes rows if and only if the
term list is empty or some term occurs as a case-insensitive substring of the
title concatenated with a single space and the abstract, and moreover the
abstract contains a non-whitespace character (otherwise there are no chunks
and hence no rows). -/
theorem medrxiv_filter_amended (item : MedItem) (terms : List String) (width : Nat)
    (hlow : ∀ t ∈ terms, pyLower t = t) :
    process_medrxiv_item item terms width ≠ [] ↔
      ((terms = [] ∨ ∃ t ∈ terms,
          caseInsensSubstr t (medTitle item ++ " " ++ medAbstract item) = true) ∧
        ∃ c ∈ (medAbstract item).data, isPySpace c = false) := by
  have hany : (terms.any (fun t =>
        hasSubstring t.data
          (pyLower (medTitle item ++ " " ++ medAbstract item)).data) = true) ↔
      (∃ t ∈ terms,
        caseInsensSubstr t (medTitle item ++ " " ++ medAbstract item) = true) := by
    rw [List.any_eq_true]
    constructor
    · rintro ⟨t, ht, hp⟩
      refine ⟨t, ht, ?_⟩
      rw [caseInsensSubstr, hlow t ht]
      exact hp
    · rintro ⟨t, ht, hp⟩
      refine ⟨t, ht, ?_⟩
      rw [caseInsensSubstr, hlow t ht] at hp
      exact hp
  by_cases hguard : 0 < terms.length ∧
      terms.any (fun t =>
        hasSubstring t.data
          (pyLower (medTitle item ++ " " ++ medAbstract item)).data) = false
  · simp only [process_medrxiv_item, medBuildRows]
    rw [if_pos hguard]
    simp only [ne_eq, not_true_eq_false, false_iff, not_and]
    intro hor
    rcases hor with hnil | hex
    · rw [hnil] at hguard
      exact absurd hguard.1 (by simp)
    · have htrue := hany.mpr hex
      rw [hguard.2] at htrue
      simp at htrue
  · simp only [process_medrxiv_item, medBuildRows]
    rw [if_neg hguard]
    have hfirst : terms = [] ∨ ∃ t ∈ terms,
        caseInsensSubstr t (medTitle item ++ " " ++ medAbstract item) = true := by
      rcases not_and_or.mp hguard with h | h
      · left
        cases terms with
        | nil => rfl
        | cons a l => exact absurd (by simp) h
      · right
        apply hany.mp
        rcases Bool.eq_false_or_eq_true (terms.any (fun t =>
            hasSubstring t.data
              (pyLower (medTitle item ++ " " ++ medAbstract item)).data)) with hb | hb
        · exact hb
        · exact absurd hb h
    constructor
    · intro hne
      refine ⟨hfirst, ?_⟩
      rw [← textwrapWrap_ne_nil_iff (medAbstract item) width]
      intro hwnil
      rw [hwnil] at hne
      simp at hne
    · rintro ⟨-, hex⟩
      rw [← textwrapWrap_ne_nil_iff (medAbstract item) width] at hex
      intro hmapnil
      apply hex
      have hlen := congrArg List.length hmapnil
      simp only [List.length_map, List.enum_length, List.length_nil] at hlen
      exact List.length_eq_zero.mp hlen

/-- Witness for C9 (amended) at a concrete lowercase term list and an item
with a matching, chunkable abstract. -/
theorem medrxiv_filter_amended_witness :
    process_medrxiv_item medItemCancer ["cancer"] 500 ≠ [] ↔
      (((["cancer"] : List String) = [] ∨ ∃ t ∈ (["cancer"] : List String),
          caseInsensSubstr t (medTitle medItemCancer ++ " " ++
            medAbstract medItemCancer) = true) ∧
        ∃ c ∈ (medAbstract medItemCancer).data, isPySpace c = false) :=
  medrxiv_filter_amended medItemCancer ["cancer"] 500 (by decide)

theorem collapseWs_space_eq_space :
    ∀ (l : List Char) (b : Bool), ∀ c ∈ collapseWs b l, isPySpace c = true → c = ' ' := by
  intro l
  induction l with
  | nil => intro b c hc; simp [collapseWs] at hc
  | cons c cs ih =>
    intro b x hx hsp
    by_cases hc : isPySpace c = true
    · cases b with
      | true =>
        rw [collapseWs, if_pos hc, if_pos rfl] at hx
        exact ih true x hx hsp
      | false =>
        rw [collapseWs, if_pos hc] at hx
        simp only [Bool.false_eq_true, if_false, List.mem_cons] at hx
        rcases hx with rfl | hx
        · rfl
        · exact ih true x hx hsp
    · rw [collapseWs, if_neg hc] at hx
      rcases List.mem_cons.mp hx with rfl | hx
      · exact absurd hsp hc
      · exact ih false x hx hsp

theorem collapseWs_true_head_ne_space :
    ∀ (l : List Char) (x : Char) (xs : List Char),
      collapseWs true l = x :: xs → x ≠ ' ' := by
  intro l
  induction l with
  | nil => intro x xs h; cases h
  | cons c cs ih =>
    intro x xs h
    by_cases hc : isPySpace c = true
    · rw [collapseWs, if_pos hc, if_pos rfl] at h
      exact ih x xs h
    · rw [collapseWs, if_neg hc] at h
      cases h
      intro hsp
      rw [hsp] at hc
      exact hc (by decide)

theorem collapseWs_chain :
    ∀ (l : List Char) (b : Bool),
      List.Chain' (fun a d => ¬(a = ' ' ∧ d = ' ')) (collapseWs b l) := by
  intro l
  induction l with
  | nil => intro b; simp [collapseWs]
  | cons c cs ih =>
    intro b
    by_cases hc : isPySpace c = true
    · cases b with
      | true =>
        rw [collapseWs, if_pos hc, if_pos rfl]
        exact ih true
      | false =>
        rw [collapseWs, if_pos hc]
        simp only [Bool.false_eq_true, if_false]
        rw [List.chain'_cons']
        refine ⟨?_, ih true⟩
        intro y hy
        cases hh : collapseWs true cs with
        | nil => rw [hh] at hy; cases hy
        | cons z zs =>
          rw [hh] at hy
          simp only [List.head?_cons, Option.mem_def, Option.some.injEq] at hy
          intro hand
          exact collapseWs_true_head_ne_space cs z zs hh (hy.trans hand.2)
    · rw [collapseWs, if_neg hc]
      rw [List.chain'_cons']
      refine ⟨?_, ih false⟩
      intro y hy hand
      rw [hand.1] at hc
      exact hc (by decide)

theorem pyStripL_preserves (L : List Char)
    (h1 : ∀ c ∈ L, isPySpace c = true → c = ' ')
    (h2 : List.Chain' (fun a d => ¬(a = ' ' ∧ d = ' ')) L) :
    (∀ c ∈ pyStripL L, isPySpace c = true → c = ' ') ∧
    List.Chain' (fun a d => ¬(a = ' ' ∧ d = ' ')) (pyStripL L) := by
  have hswap : ∀ (l : List Char),
      List.Chain' (fun a d => ¬(a = ' ' ∧ d = ' ')) l →
      List.Chain' (flip (fun a d => ¬(a = ' ' ∧ d = ' '))) l := by
    intro l hl
    exact hl.imp (fun a d hr hand => hr ⟨hand.2, hand.1⟩)
  constructor
  · intro c hc
    apply h1
    rw [pyStripL, List.mem_reverse] at hc
    have hc2 := (List.dropWhile_sublist isPySpace).subset hc
    rw [List.mem_reverse] at hc2
    exact (List.dropWhile_sublist isPySpace).subset hc2
  · rw [pyStripL]
    apply List.chain'_reverse.mpr
    apply hswap
    apply List.Chain'.suffix _ (List.dropWhile_suffix isPySpace)
    apply List.chain'_reverse.mpr
    apply hswap
    exact h2.suffix (List.dropWhile_suffix isPySpace)

/-- Claim C8: save_collected_data emits, for every record, the fields in the
fixed order of the fieldnames list; when there is data, a name is a field
name exactly when some record carries it; the field names are pairwise
distinct and decompose into the preferred names present in the key union, in
preferred order, followed by the remaining names, which are lexically sorted
and outside the preferred list; a missing key and a stored None both emit the
empty string, and every emitted cell has each whitespace run collapsed to a
single space (its only whitespace character is the plain space and no two
spaces are adjacent). -/
theorem save_collected_data_spec (data : List PyDict) :
    (∀ row ∈ (save_collected_data data).2, row.map Prod.fst = fieldnames data) ∧
    (data ≠ [] → ∀ k, (k ∈ fieldnames data ↔ ∃ r ∈ data, k ∈ dictKeys r)) ∧
    (fieldnames data).Nodup ∧
    (data ≠ [] → fieldnames data =
      preferredFields.filter (fun k => k ∈ unionKeys data) ++
        (List.insertionSort (fun a b => a ≤ b) (unionKeys data)).filter
          (fun k => ¬ k ∈ preferredFields)) ∧
    List.Sorted (fun a b : String => a ≤ b)
      ((List.insertionSort (fun a b => a ≤ b) (unionKeys data)).filter
        (fun k => ¬ k ∈ preferredFields)) ∧
    (∀ k ∈ (List.insertionSort (fun a b => a ≤ b) (unionKeys data)).filter
        (fun k => ¬ k ∈ preferredFields), k ∉ preferredFields) ∧
    normalizeCell none = "" ∧ normalizeCell (some none) = "" ∧
    (∀ s : String,
      (∀ c ∈ (normalizeCell (some (some s))).data, isPySpace c = true → c = ' ') ∧
      List.Chain' (fun a d => ¬(a = ' ' ∧ d = ' '))
        (normalizeCell (some (some s))).data) := by
  have hunion : ∀ k, k ∈ unionKeys data ↔ ∃ r ∈ data, k ∈ dictKeys r := by
    intro k
    rw [unionKeys, List.mem_dedup, List.mem_flatten]
    constructor
    · rintro ⟨l, hl, hkl⟩
      rw [List.mem_map] at hl
      obtain ⟨r, hr, rfl⟩ := hl
      exact ⟨r, hr, hkl⟩
    · rintro ⟨r, hr, hkr⟩
      exact ⟨dictKeys r, List.mem_map_of_mem _ hr, hkr⟩
  have hsortmem : ∀ k, k ∈ List.insertionSort (fun a b : String => a ≤ b)
      (unionKeys data) ↔ k ∈ unionKeys data :=
    fun k => (List.perm_insertionSort _ _).mem_iff
  refine ⟨?_, ?_, ?_, ?_, ?_, ?_, rfl, rfl, ?_⟩
  · intro row hrow
    simp only [save_collected_data, List.mem_map] at hrow
    obtain ⟨r, hr, rfl⟩ := hrow
    rw [emitRow, List.map_map]
    have hcomp : (Prod.fst ∘ fun k => (k, normalizeCell (dictGet r k))) = id := rfl
    rw [hcomp, List.map_id]
  · intro hne k
    rw [fieldnames, if_neg hne]
    rw [List.mem_append, List.mem_filter, List.mem_filter, hsortmem k]
    simp only [decide_eq_true_eq, decide_not, Bool.not_eq_true', decide_eq_false_iff_not]
    rw [← hunion k]
    by_cases hp : k ∈ preferredFields
    · constructor
      · rintro (⟨-, h⟩ | ⟨h, -⟩) <;> exact h
      · intro h
        exact Or.inl ⟨hp, h⟩
    · constructor
      · rintro (⟨h, -⟩ | ⟨h, -⟩)
        · exact absurd h hp
        · exact h
      · intro h
        exact Or.inr ⟨h, hp⟩
  · rw [fieldnames]
    by_cases hne : data = []
    · simp [hne]
    · rw [if_neg hne]
      apply List.Nodup.append
      · exact List.Nodup.filter _ (by decide)
      · exact List.Nodup.filter _
          ((List.perm_insertionSort _ _).nodup_iff.mpr (List.nodup_dedup _))
      · intro a ha hb
        rw [List.mem_filter] at ha hb
        have h1 : a ∈ preferredFields := ha.1
        have h2 := hb.2
        simp only [decide_not, Bool.not_eq_true', decide_eq_false_iff_not] at h2
        exact h2 h1
  · intro hne
    rw [fieldnames, if_neg hne]
  · exact List.Pairwise.filter _ (List.sorted_insertionSort _ _)
  · intro k hk
    rw [List.mem_filter] at hk
    have := hk.2
    simp only [decide_not, Bool.not_eq_true', decide_eq_false_iff_not] at this
    exact this
  · intro s
    exact pyStripL_preserves (collapseWs false s.data)
      (collapseWs_space_eq_space s.data false) (collapseWs_chain s.data false)

/-- Witness for C8 at concrete records: the extra field zzz is a field name
since a record carries it. -/
theorem save_collected_data_spec_witness :
    dataW ≠ [] ∧ (("zzz" ∈ fieldnames dataW) ↔ ∃ r ∈ dataW, "zzz" ∈ dictKeys r) :=
  ⟨by decide, (save_collected_data_spec dataW).2.1 (by decide) "zzz"⟩

theorem joinWords_cons_cons (w v : List Char) (vs : List (List Char)) :
    joinWords (w :: v :: vs) = w ++ ' ' :: joinWords (v :: vs) := rfl

theorem splitWordsAux_through_word :
    ∀ (w rest cur : List Char), (∀ c ∈ w, isPySpace c = false) →
      splitWordsAux (w ++ rest) cur = splitWordsAux rest (w.reverse ++ cur) := by
  intro w
  induction w with
  | nil => intro rest cur h; simp
  | cons c w ih =>
    intro rest cur h
    have hc : isPySpace c = false := h c (List.mem_cons_self c w)
    have hrec := ih rest (c :: cur) (fun x hx => h x (List.mem_cons_of_mem c hx))
    rw [List.cons_append, splitWordsAux, if_neg (by rw [hc]; exact Bool.false_ne_true)]
    rw [hrec, List.reverse_cons, List.append_assoc]
    rfl

theorem splitWords_joinWords :
    ∀ (ws : List (List Char)), (∀ w ∈ ws, w ≠ []) →
      (∀ w ∈ ws, ∀ c ∈ w, isPySpace c = false) →
      splitWords (joinWords ws) = ws := by
  intro ws
  induction ws with
  | nil => intro _ _; rfl
  | cons w ws ih =>
    intro hne hchars
    have hw : w ≠ [] := hne w (List.mem_cons_self w ws)
    have hwc : ∀ c ∈ w, isPySpace c = false :=
      hchars w (List.mem_cons_self w ws)
    cases ws with
    | nil =>
      show splitWordsAux (joinWords [w]) [] = [w]
      have : joinWords [w] = w ++ [] := by simp [joinWords]
      rw [this, splitWordsAux_through_word w [] [] hwc]
      simp [splitWordsAux, hw]
    | cons v vs =>
      show splitWordsAux (joinWords (w :: v :: vs)) [] = w :: v :: vs
      rw [joinWords_cons_cons, splitWordsAux_through_word w _ [] hwc]
      rw [splitWordsAux, if_pos (by decide)]
      rw [if_neg (by simp [hw])]
      rw [List.append_nil, List.reverse_reverse]
      have := ih (fun u hu => hne u (List.mem_cons_of_mem w hu))
        (fun u hu => hchars u (List.mem_cons_of_mem w hu))
      rw [show splitWordsAux (joinWords (v :: vs)) [] = splitWords (joinWords (v :: vs))
        from rfl, this]

theorem wrapWords_join (width : Nat) :
    ∀ (ws : List (List Char)) (cur : List Char), (∀ w ∈ ws, w ≠ []) →
      joinWords (wrapWords width ws cur) =
        if cur = [] then joinWords ws
        else if ws = [] then cur else cur ++ ' ' :: joinWords ws := by
  intro ws
  induction ws with
  | nil =>
    intro cur _
    by_cases hcur : cur = [] <;> simp [wrapWords, hcur, joinWords]
  | cons w ws ih =>
    intro cur hne
    have hw : w ≠ [] := hne w (List.mem_cons_self w ws)
    have hrest : ∀ u ∈ ws, u ≠ [] := fun u hu => hne u (List.mem_cons_of_mem w hu)
    by_cases hcur : cur = []
    · rw [wrapWords, if_pos hcur, if_pos hcur, ih w hrest, if_neg hw]
      cases ws with
      | nil => simp [joinWords]
      | cons v vs => simp [joinWords_cons_cons]
    · rw [wrapWords, if_neg hcur]
      by_cases hfit : cur.length + 1 + w.length ≤ width
      · rw [if_pos hfit, ih (cur ++ ' ' :: w) hrest]
        have hcw : cur ++ ' ' :: w ≠ [] := by simp
        rw [if_neg hcw, if_neg hcur, if_neg (by simp : w :: ws ≠ [])]
        cases ws with
        | nil => simp [joinWords]
        | cons v vs => simp [joinWords_cons_cons, List.append_assoc]
      · rw [if_neg hfit]
        have htail : wrapWords width ws w ≠ [] := by
          intro hnil
          rcases (wrapWords_eq_nil_iff width ws w hrest).mp hnil with ⟨-, hwnil⟩
          exact hw hwnil
        obtain ⟨x, xs, hx⟩ := List.exists_cons_of_ne_nil htail
        rw [hx, joinWords_cons_cons, ← hx, ih w hrest, if_neg hw]
        rw [if_neg hcur, if_neg (by simp : w :: ws ≠ [])]
        cases ws with
        | nil => simp [joinWords]
        | cons v vs => simp [joinWords_cons_cons]

theorem mem_joinWords :
    ∀ (ws : List (List Char)) (c : Char), c ∈ joinWords ws →
      c = ' ' ∨ ∃ w ∈ ws, c ∈ w := by
  intro ws
  induction ws with
  | nil => intro c hc; cases hc
  | cons w ws ih =>
    intro c hc
    cases ws with
    | nil =>
      right
      exact ⟨w, List.mem_cons_self w [], hc⟩
    | cons v vs =>
      rw [joinWords_cons_cons, List.mem_append, List.mem_cons] at hc
      rcases hc with hc | hc | hc
      · exact Or.inr ⟨w, List.mem_cons_self w _, hc⟩
      · exact Or.inl hc
      · rcases ih c hc with h | ⟨u, hu, hcu⟩
        · exact Or.inl h
        · exact Or.inr ⟨u, List.mem_cons_of_mem w hu, hcu⟩

theorem head?_joinWords (w : List Char) (ws : List (List Char)) (hw : w ≠ []) :
    (joinWords (w :: ws)).head? = w.head? := by
  obtain ⟨c, w', rfl⟩ := List.exists_cons_of_ne_nil hw
  cases ws with
  | nil => rfl
  | cons v vs => rw [joinWords_cons_cons]; rfl

theorem getLast?_joinWords :
    ∀ (ws : List (List Char)), ws ≠ [] → (∀ u ∈ ws, u ≠ []) →
      ∃ u ∈ ws, (joinWords ws).getLast? = u.getLast? := by
  intro ws
  induction ws with
  | nil => intro h _; exact absurd rfl h
  | cons w ws ih =>
    intro _ hne
    cases ws with
    | nil => exact ⟨w, List.mem_cons_self w [], rfl⟩
    | cons v vs =>
      have hvs : ∀ u ∈ v :: vs, u ≠ [] := fun u hu => hne u (List.mem_cons_of_mem w hu)
      obtain ⟨u, hu, hul⟩ := ih (by simp) hvs
      have hjvne : joinWords (v :: vs) ≠ [] := by
        intro hnil
        have hv : v ≠ [] := hvs v (List.mem_cons_self v vs)
        obtain ⟨c, v', rfl⟩ := List.exists_cons_of_ne_nil hv
        have := congrArg List.head? hnil
        rw [head?_joinWords _ _ (by simp)] at this
        cases this
      refine ⟨u, List.mem_cons_of_mem w hu, ?_⟩
      rw [joinWords_cons_cons, List.getLast?_append_of_ne_nil _ (by simp)]
      rw [show (' ' :: joinWords (v :: vs)).getLast? = (joinWords (v :: vs)).getLast? by
        obtain ⟨x, xs, hx⟩ := List.exists_cons_of_ne_nil hjvne
        rw [hx, List.getLast?_cons_cons]]
      exact hul

theorem pyStripL_joinWords (ws : List (List Char))
    (hne : ∀ w ∈ ws, w ≠ []) (hchars : ∀ w ∈ ws, ∀ c ∈ w, isPySpace c = false) :
    pyStripL (joinWords ws) = joinWords ws := by
  cases hws : ws with
  | nil => rfl
  | cons w ws' =>
    have hw : w ≠ [] := hne w (by rw [hws]; exact List.mem_cons_self w ws')
    have hdrop1 : (joinWords (w :: ws')).dropWhile isPySpace = joinWords (w :: ws') := by
      obtain ⟨c, w', rfl⟩ := List.exists_cons_of_ne_nil hw
      have hc : isPySpace c = false :=
        hchars _ (by rw [hws]; exact List.mem_cons_self _ ws') c (by simp)
      have hh := head?_joinWords (c :: w') ws' (by simp)
      obtain ⟨x, xs, hx⟩ := List.exists_cons_of_ne_nil (l := joinWords ((c :: w') :: ws'))
        (by intro hnil; rw [hnil] at hh; cases hh)
      rw [hx]
      rw [hx] at hh
      simp only [List.head?_cons, Option.some.injEq] at hh
      rw [List.dropWhile_cons, if_neg (by rw [hh, hc]; exact Bool.false_ne_true)]
    have hlast : ∃ u ∈ w :: ws', (joinWords (w :: ws')).getLast? = u.getLast? :=
      getLast?_joinWords (w :: ws') (by simp) (fun u hu => hne u (by rw [hws]; exact hu))
    have hdrop2 : (joinWords (w :: ws')).reverse.dropWhile isPySpace
        = (joinWords (w :: ws')).reverse := by
      obtain ⟨u, hu, hul⟩ := hlast
      have hu_ne : u ≠ [] := hne u (by rw [hws]; exact hu)
      obtain ⟨d, hd⟩ : ∃ d, u.getLast? = some d := by
        obtain ⟨c, u', rfl⟩ := List.exists_cons_of_ne_nil hu_ne
        cases hgl : (c :: u').getLast? with
        | none => simp at hgl
        | some d => exact ⟨d, rfl⟩
      have hdmem : d ∈ u := List.mem_of_getLast?_eq_some hd
      have hdns : isPySpace d = false := hchars u (by rw [hws]; exact hu) d hdmem
      cases hrev : (joinWords (w :: ws')).reverse with
      | nil => rfl
      | cons x xs =>
        have hxd : x = d := by
          have := List.head?_reverse (joinWords (w :: ws'))
          rw [hrev, hul, hd] at this
          simpa using this
        rw [List.dropWhile_cons, if_neg (by rw [hxd, hdns]; exact Bool.false_ne_true)]
    rw [pyStripL, hdrop1, hdrop2, List.reverse_reverse]

theorem pyReplaceNl_joinWords (ws : List (List Char))
    (hchars : ∀ w ∈ ws, ∀ c ∈ w, isPySpace c = false) :
    pyReplaceNl (String.mk (joinWords ws)) = String.mk (joinWords ws) := by
  rw [pyReplaceNl]
  have hdata : (String.mk (joinWords ws)).data = joinWords ws := rfl
  rw [hdata]
  have hmap : (joinWords ws).map (fun c => if c = '\n' then ' ' else c)
      = (joinWords ws).map id := by
    apply List.map_congr_left
    intro c hc
    rcases mem_joinWords ws c hc with rfl | ⟨w, hw, hcw⟩
    · decide
    · show (if c = '\n' then ' ' else c) = id c
      rw [if_neg ?_]
      · rfl
      · intro hcn
        have hns := hchars w hw c hcw
        rw [hcn] at hns
        exact absurd hns (by decide)
  rw [hmap, List.map_id]

theorem enumRows_props (wrapped : List String) (f : Nat × String → Row)
    (hf1 : ∀ ic, (f ic).chunk_id = ic.1) (hf2 : ∀ ic, (f ic).text_chunk = ic.2) :
    (wrapped.enum.map f).map Row.chunk_id = List.range (wrapped.enum.map f).length ∧
    (wrapped.enum.map f).map (fun r => r.text_chunk.data)
      = wrapped.map (fun s => s.data) := by
  constructor
  · rw [List.map_map, List.length_map, List.enum_length]
    have h1 : wrapped.enum.map (Row.chunk_id ∘ f) = wrapped.enum.map Prod.fst :=
      List.map_congr_left (fun ic _ => hf1 ic)
    rw [h1, List.enum_map_fst]
  · rw [List.map_map]
    have h2 : wrapped.enum.map ((fun r => r.text_chunk.data) ∘ f)
        = wrapped.enum.map (fun ic => ic.2.data) :=
      List.map_congr_left (fun ic _ => congrArg String.data (hf2 ic))
    rw [h2]
    have h3 : wrapped.enum.map (fun ic : Nat × String => ic.2.data)
        = (wrapped.enum.map Prod.snd).map (fun s => s.data) := by
      rw [List.map_map]
      rfl
    rw [h3, List.enum_map_snd]

theorem buildRows_reconstruct (ws : List (List Char)) (width : Nat)
    (rows : List Row) (wrapped : List String) (f : Nat × String → Row)
    (hrows : rows = wrapped.enum.map f)
    (hf1 : ∀ ic, (f ic).chunk_id = ic.1) (hf2 : ∀ ic, (f ic).text_chunk = ic.2)
    (hwr : wrapped = (wrapWords width ws []).map String.mk)
    (hwne : ∀ w ∈ ws, w ≠ []) (hne : ws ≠ []) :
    joinWords (rows.map (fun r => r.text_chunk.data)) = joinWords ws ∧
    rows.map Row.chunk_id = List.range rows.length ∧ rows ≠ [] := by
  have hprops := enumRows_props wrapped f hf1 hf2
  have hmapdata : ((wrapWords width ws []).map String.mk).map (fun s => s.data)
      = wrapWords width ws [] := by
    rw [List.map_map]
    have hcomp : ((fun s : String => s.data) ∘ String.mk) = id := rfl
    rw [hcomp, List.map_id]
  have hlines_join : joinWords (wrapWords width ws []) = joinWords ws := by
    rw [wrapWords_join width ws [] hwne]
    simp
  have hlines_ne : wrapWords width ws [] ≠ [] := by
    intro hnil
    exact hne ((wrapWords_eq_nil_iff width ws [] hwne).mp hnil).1
  refine ⟨?_, ?_, ?_⟩
  · rw [hrows, hprops.2, hwr, hmapdata, hlines_join]
  · rw [hrows]
    exact hprops.1
  · rw [hrows, hwr]
    intro hnil
    rw [List.map_eq_nil_iff, List.enum_eq_nil, List.map_eq_nil_iff] at hnil
    exact hlines_ne hnil

/-- Claim C2: for an article whose normalized abstract text is the single-space
join of non-empty words, none longer than the wrap width, both the medRxiv and
the Europe PMC item processors emit rows whose text chunks, joined back with
single spaces in chunk_id order, reconstruct that text exactly; the chunk ids
are 0, 1, ... in emission order and at least one row is emitted. The word
hypotheses delimit the domain on which the wrap model coincides with
textwrap.wrap, per the module header. -/
theorem chunks_reconstruct_spec
    (ws : List (List Char)) (width : Nat) (item : MedItem) (eitem : EpmcItem)
    (detail : String → String → Option EpmcDetail)
    (ftDoc : String → String → Option Xml)
    (hne : ws ≠ []) (hwne : ∀ w ∈ ws, w ≠ [])
    (hchars : ∀ w ∈ ws, ∀ c ∈ w, isPySpace c = false ∧ c ≠ '-')
    (hlen : ∀ w ∈ ws, w.length ≤ width) (hpos : 1 ≤ width)
    (habs : item.abstract = some (String.mk (joinWords ws)))
    (heabs : eitem.abstractText = some (String.mk (joinWords ws))) :
    (joinWords ((process_medrxiv_item item [] width).map (fun r => r.text_chunk.data))
        = joinWords ws ∧
      (process_medrxiv_item item [] width).map Row.chunk_id
        = List.range (process_medrxiv_item item [] width).length ∧
      process_medrxiv_item item [] width ≠ []) ∧
    (joinWords ((epmc_process_item detail ftDoc eitem width).map
          (fun r => r.text_chunk.data)) = joinWords ws ∧
      (epmc_process_item detail ftDoc eitem width).map Row.chunk_id
        = List.range (epmc_process_item detail ftDoc eitem width).length ∧
      epmc_process_item detail ftDoc eitem width ≠ []) := by
  have hcn : ∀ w ∈ ws, ∀ c ∈ w, isPySpace c = false :=
    fun w hw c hc => (hchars w hw c hc).1
  have hjne : joinWords ws ≠ [] := by
    obtain ⟨w, ws', rfl⟩ := List.exists_cons_of_ne_nil hne
    have hw := hwne w (List.mem_cons_self w ws')
    intro hnil
    have hh := head?_joinWords w ws' hw
    rw [hnil] at hh
    obtain ⟨c, w', rfl⟩ := List.exists_cons_of_ne_nil hw
    cases hh
  have hsne : String.mk (joinWords ws) ≠ "" := by
    intro h
    exact hjne (by simpa using congrArg String.data h)
  have hpyor : pyOr (some (String.mk (joinWords ws))) "" = String.mk (joinWords ws) := by
    simp [pyOr, hsne]
  have hstrip : pyStrip (String.mk (joinWords ws)) = String.mk (joinWords ws) := by
    rw [pyStrip, show (String.mk (joinWords ws)).data = joinWords ws from rfl,
      pyStripL_joinWords ws hwne hcn]
  have hkey : textwrapWrap (pyReplaceNl (String.mk (joinWords ws))) width
      = (wrapWords width ws []).map String.mk := by
    rw [pyReplaceNl_joinWords ws hcn, textwrapWrap, pyWrap,
      show (String.mk (joinWords ws)).data = joinWords ws from rfl,
      splitWords_joinWords ws hwne hcn]
  constructor
  · have hmed : medAbstract item = String.mk (joinWords ws) := by
      rw [medAbstract, habs, hpyor, hstrip]
    have hmrows : process_medrxiv_item item [] width
        = medBuildRows item (String.mk (joinWords ws)) width := by
      simp only [process_medrxiv_item]
      rw [if_neg (by simp), hmed]
    rw [hmrows]
    exact buildRows_reconstruct ws width _ _ _ rfl
      (fun ic => rfl) (fun ic => rfl) hkey hwne hne
  · have ha0 : pyStrip (pyOr eitem.abstractText "") = String.mk (joinWords ws) := by
      rw [heabs, hpyor, hstrip]
    have hepmc_abs : epmcResolveAbstract detail ftDoc eitem
        = String.mk (joinWords ws) := by
      rw [epmcResolveAbstract]
      simp only [ha0]
      rw [if_neg hsne, if_neg (fun hand => hsne hand.1)]
    have herows : epmc_process_item detail ftDoc eitem width
        = epmcBuildRows eitem (String.mk (joinWords ws)) width := by
      simp only [epmc_process_item, hepmc_abs]
      rw [if_neg hsne]
    rw [herows]
    exact buildRows_reconstruct ws width _ _ _ rfl
      (fun ic => rfl) (fun ic => rfl) hkey hwne hne

/-- Witness for C2 at the concrete word list ab, c, de with width 5: both
processors reconstruct the abstract "ab c de". -/
theorem chunks_reconstruct_spec_witness :
    joinWords ((process_medrxiv_item medItemW [] 5).map (fun r => r.text_chunk.data))
        = joinWords wsW ∧
    joinWords ((epmc_process_item detailNone ftNone epmcItemW 5).map
        (fun r => r.text_chunk.data)) = joinWords wsW := by
  have h := chunks_reconstruct_spec wsW 5 medItemW epmcItemW detailNone ftNone
    (by decide) (by decide) (by decide) (by decide) (by decide)
    (by decide) (by decide)
  exact ⟨h.1.1, h.2.1⟩
